import Mathlib

/-!
Verification of the style-record model and field-rewrite engine of an
Advanced SubStation Alpha (.ass) subtitle style editor.

Python strings are modelled as `List Char`; Python lists as Lean lists;
fallible operations (which may raise) return `Except String`.  Each
definition below is a shallow embedding of the corresponding function in
`src/main.py`, translated statement by statement.
-/

/-- Python whitespace for `str.strip()` (ASCII subset). -/
def isPySpace (c : Char) : Bool :=
  c = ' ' || c = '\t' || c = '\n' || c = '\r' || c = '\x0b' || c = '\x0c'

/-- Python `s.strip()`: remove leading and trailing whitespace. -/
def pyStrip (s : List Char) : List Char :=
  ((s.dropWhile isPySpace).reverse.dropWhile isPySpace).reverse

/-- Python `s.startswith(p)`. -/
def pyStartsWith (p s : List Char) : Bool :=
  p.isPrefixOf s

/-- Python `s.split(sep)` for a single-character separator: always returns at
least one piece, pieces do not contain the separator, separators are not kept. -/
def pySplit (sep : Char) : List Char → List (List Char)
  | [] => [[]]
  | c :: rest =>
    match pySplit sep rest with
    | piece :: pieces =>
      if c = sep then [] :: piece :: pieces else (c :: piece) :: pieces
    | [] => [[]]

/-- Python `sep.join(pieces)` for a single-character separator. -/
def pyJoin (sep : Char) : List (List Char) → List Char
  | [] => []
  | [l] => l
  | l :: ls => l ++ sep :: pyJoin sep ls

theorem pySplit_ne_nil (sep : Char) (s : List Char) : pySplit sep s ≠ [] := by
  cases s with
  | nil => simp [pySplit]
  | cons c rest =>
    simp only [pySplit]
    cases pySplit sep rest with
    | nil => simp
    | cons piece pieces => by_cases h : c = sep <;> simp [h]

/-- Splitting on a separator and joining with the same separator restores the
original string (Python guarantees this for `sep.join(s.split(sep))`). -/
theorem pyJoin_pySplit (sep : Char) (s : List Char) :
    pyJoin sep (pySplit sep s) = s := by
  induction s with
  | nil => simp [pySplit, pyJoin]
  | cons c rest ih =>
    simp only [pySplit]
    cases hr : pySplit sep rest with
    | nil => exact absurd hr (pySplit_ne_nil sep rest)
    | cons piece pieces =>
      rw [hr] at ih
      by_cases h : c = sep
      · subst h
        simp only [if_pos rfl, pyJoin]
        cases pieces <;> simpa [pyJoin] using ih
      · simp only [if_neg h]
        cases pieces with
        | nil => simpa [pyJoin] using ih
        | cons q qs => simpa [pyJoin] using ih

/-- The 22 characters accepted as hexadecimal digits (the character set used by
`HexCodeValidator` in the source). -/
def hexDigits : List Char :=
  '0' :: '1' :: '2' :: '3' :: '4' :: '5' :: '6' :: '7' :: '8' :: '9' ::
  'a' :: 'b' :: 'c' :: 'd' :: 'e' :: 'f' ::
  'A' :: 'B' :: 'C' :: 'D' :: 'E' :: 'F' :: []

/-- `c` is a hexadecimal digit. -/
def isHexDigit (c : Char) : Bool :=
  decide (c ∈ hexDigits)

/-- `StyleModifier.hex_to_ass_color`: strip leading `#` characters
(`str.lstrip("#")` removes every leading occurrence), require length 6
(the only validation performed!), then emit
`&H00` + blue pair + green pair + red pair, uppercased. -/
def hex_to_ass_color (s : List Char) : Except String (List Char) :=
  let h := s.dropWhile (· == '#')
  if h.length = 6 then
    .ok ((['&', 'H', '0', '0'] ++
      ((h.drop 4).take 2 ++ (h.drop 2).take 2 ++ h.take 2)).map Char.toUpper)
  else
    .error "Invalid hex color format. Use #RRGGBB."

theorem isHexDigit_ne_hash {c : Char} (h : isHexDigit c = true) : (c == '#') = false := by
  have hm : c ∈ hexDigits := of_decide_eq_true h
  fin_cases hm <;> decide

theorem isHexDigit_toUpper {c : Char} (h : isHexDigit c = true) :
    isHexDigit c.toUpper = true := by
  have hm : c ∈ hexDigits := of_decide_eq_true h
  fin_cases hm <;> decide

/-- **C2.** For every input that is an optional `#` followed by exactly six hex
digits `R₁R₂G₁G₂B₁B₂`, `hex_to_ass_color` succeeds and returns the marker `&H`
followed by exactly 8 hex characters: the fixed alpha byte `00`, then the blue,
green and red byte pairs of the input in that order, uppercased. -/
theorem hex_to_ass_color_valid (b : Bool) (r1 r2 g1 g2 b1 b2 : Char)
    (h1 : isHexDigit r1 = true) (h2 : isHexDigit r2 = true)
    (h3 : isHexDigit g1 = true) (h4 : isHexDigit g2 = true)
    (h5 : isHexDigit b1 = true) (h6 : isHexDigit b2 = true) :
    hex_to_ass_color ((if b then ['#'] else []) ++ [r1, r2, g1, g2, b1, b2]) =
      .ok ('&' :: 'H' ::
        (['0', '0', b1, b2, g1, g2, r1, r2].map Char.toUpper)) ∧
    (['0', '0', b1, b2, g1, g2, r1, r2].map Char.toUpper).length = 8 ∧
    (['0', '0', b1, b2, g1, g2, r1, r2].map Char.toUpper).all isHexDigit = true := by
  refine ⟨?_, by simp, ?_⟩
  · have hdrop : ((if b then ['#'] else []) ++
        [r1, r2, g1, g2, b1, b2]).dropWhile (· == '#') = [r1, r2, g1, g2, b1, b2] := by
      cases b <;>
        simp [List.dropWhile, isHexDigit_ne_hash h1]
    simp [hex_to_ass_color, hdrop]
  · simp only [List.map_cons, List.map_nil, List.all_cons, List.all_nil]
    simp [isHexDigit_toUpper h1, isHexDigit_toUpper h2, isHexDigit_toUpper h3,
      isHexDigit_toUpper h4, isHexDigit_toUpper h5, isHexDigit_toUpper h6]
    decide

/-- Witness for C2 at the concrete input `#112233`, which maps to `&H00332211`. -/
theorem hex_to_ass_color_valid_witness :
    hex_to_ass_color ("#112233").toList = .ok ("&H00332211").toList ∧
    (("00332211").toList).length = 8 ∧
    (("00332211").toList).all isHexDigit = true := by
  have h := hex_to_ass_color_valid true '1' '1' '2' '2' '3' '3'
    (by decide) (by decide) (by decide) (by decide) (by decide) (by decide)
  exact ⟨h.1, by decide, by decide⟩

/-- **C5 counterexample.** `hex_to_ass_color` performs no hex-digit validation:
the length-6 non-hex input `GGHHII` succeeds (returning `&H00IIHHGG`), and an
input with several leading `#` characters such as `###112233` also succeeds,
although the claim requires both to fail with `InvalidColorFormat`. -/
theorem hex_to_ass_color_nonhex_counterexample :
    isHexDigit 'G' = false ∧
    hex_to_ass_color ("GGHHII").toList = .ok ("&H00IIHHGG").toList ∧
    hex_to_ass_color ("###112233").toList = .ok ("&H00332211").toList := by
  exact ⟨by decide, rfl, rfl⟩

/-- **C5 amended.** `hex_to_ass_color` fails (with the invalid-color error)
exactly when the input, after stripping every leading `#` character, does not
have length 6; the characters themselves are never validated. -/
theorem hex_to_ass_color_error_iff (s : List Char) :
    hex_to_ass_color s = .error "Invalid hex color format. Use #RRGGBB." ↔
      (s.dropWhile (· == '#')).length ≠ 6 := by
  by_cases h : (s.dropWhile (· == '#')).length = 6 <;>
    simp [hex_to_ass_color, h]

/-- The style-entry marker `Style:`. -/
def styleMarker : List Char := ('S' :: 't' :: 'y' :: 'l' :: 'e' :: ':' :: [])

/-- `ASSFile.get_fonts`: one pass over all lines of the file; every line that
starts with `Style:` — wherever it occurs, there is no section tracking —
contributes the pair `(line.split(",")[1].strip(), line)`.  Accessing index 1
of the split raises `IndexError` when the line contains no comma; the error is
modelled by `Except.error`. -/
def get_fonts : List (List Char) → Except String (List (List Char × List Char))
  | [] => .ok []
  | line :: rest =>
    if pyStartsWith styleMarker line then
      match pySplit ',' line with
      | _ :: second :: _ =>
        match get_fonts rest with
        | .ok r => .ok ((pyStrip second, line) :: r)
        | .error e => .error e
      | _ => .error "list index out of range"
    else get_fonts rest

/-- **C1 counterexample.** The scan is not section-aware: a well-formed style
line occurring outside any style section (here: the only line of the file, with
no `[V4+ Styles]` header anywhere) is still parsed and returned, although the
claim requires it not to be. -/
theorem get_fonts_not_section_aware_counterexample :
    get_fonts [("Style: A, Arial,20").toList] =
      .ok [(("Arial").toList, ("Style: A, Arial,20").toList)] ∧
    get_fonts [("Style: A, Arial,20").toList] ≠ .ok [] := by
  refine ⟨rfl, fun h => ?_⟩
  have hc : get_fonts [("Style: A, Arial,20").toList] =
      .ok [(("Arial").toList, ("Style: A, Arial,20").toList)] := rfl
  rw [hc] at h
  exact List.noConfusion (Except.ok.inj h)

/-- **C1 amended.** The scan ignores section boundaries entirely: provided
every `Style:` line splits into at least two comma-fields (see C6 for the
failure otherwise), it returns exactly one record per line beginning with
`Style:` — inside or outside any `[V4+ Styles]` section — in file order, each
carrying the stripped second comma-field as its font name. -/
theorem get_fonts_all_style_lines (lines : List (List Char))
    (h : ∀ l ∈ lines, pyStartsWith styleMarker l = true → 2 ≤ (pySplit ',' l).length) :
    ∃ r, get_fonts lines = .ok r ∧
      r.map Prod.snd = lines.filter (fun l => pyStartsWith styleMarker l) ∧
      ∀ p ∈ r, p.1 = pyStrip ((pySplit ',' p.2).getD 1 []) := by
  induction lines with
  | nil => exact ⟨[], rfl, rfl, by simp⟩
  | cons line rest ih =>
    obtain ⟨r, hr, hmap, hfields⟩ := ih (fun l hl => h l (List.mem_cons_of_mem _ hl))
    by_cases hs : pyStartsWith styleMarker line = true
    · have hlen := h line (List.mem_cons_self _ _) hs
      cases hsplit : pySplit ',' line with
      | nil => exact absurd hsplit (pySplit_ne_nil ',' line)
      | cons p1 ps =>
        cases ps with
        | nil => rw [hsplit] at hlen; simp at hlen
        | cons p2 ps2 =>
          refine ⟨(pyStrip p2, line) :: r, ?_, ?_, ?_⟩
          · simp only [get_fonts, if_pos hs, hsplit, hr]
          · simp [List.filter_cons, hs, hmap]
          · intro p hp
            rcases List.mem_cons.mp hp with hph | hpr
            · subst hph; simp [hsplit]
            · exact hfields p hpr
    · refine ⟨r, ?_, ?_, hfields⟩
      · simp only [get_fonts, if_neg hs, hr]
      · simp [List.filter_cons, hs, hmap]

/-- Witness for the amended C1: a file with a style line before any section
header, a `[V4+ Styles]` header, a style line inside the section, and a
malformed comment line; both style lines are returned, in order. -/
theorem get_fonts_all_style_lines_witness :
    (∀ l ∈ [("Style: A,Arial").toList, ("[V4+ Styles]").toList,
        ("Style: B, Calibri ,20").toList, ("; comment").toList],
      pyStartsWith styleMarker l = true → 2 ≤ (pySplit ',' l).length) ∧
    (∃ r, get_fonts [("Style: A,Arial").toList, ("[V4+ Styles]").toList,
        ("Style: B, Calibri ,20").toList, ("; comment").toList] = .ok r ∧
      r.map Prod.snd = [("Style: A,Arial").toList, ("[V4+ Styles]").toList,
        ("Style: B, Calibri ,20").toList, ("; comment").toList].filter
          (fun l => pyStartsWith styleMarker l) ∧
      ∀ p ∈ r, p.1 = pyStrip ((pySplit ',' p.2).getD 1 [])) :=
  ⟨by decide, get_fonts_all_style_lines _ (by decide)⟩

/-- **C6 counterexample.** A `Style:` line with no comma is not silently
excluded: it makes the whole scan raise (`IndexError` in the source), even
though the file also contains a well-formed style line whose record the claim
requires to be returned. -/
theorem get_fonts_malformed_counterexample :
    get_fonts [("[V4+ Styles]").toList, ("Style: NoComma").toList,
      ("Style: B,Arial,20").toList] = .error "list index out of range" := rfl

/-- **C6 amended.** A `Style:` line that cannot be split into at least two
comma-fields (e.g. one containing no comma) makes the scan of the whole file
fail with an index error — it is not silently excluded, and no records at all
are returned. -/
theorem get_fonts_malformed_raises (lines : List (List Char)) (l : List Char)
    (hmem : l ∈ lines) (hs : pyStartsWith styleMarker l = true)
    (hbad : (pySplit ',' l).length < 2) :
    get_fonts lines = .error "list index out of range" := by
  induction lines with
  | nil => cases hmem
  | cons a rest ih =>
    rcases List.mem_cons.mp hmem with heq | hmem2
    · rw [← heq]
      cases hsplit : pySplit ',' l with
      | nil => exact absurd hsplit (pySplit_ne_nil ',' l)
      | cons p1 ps =>
        cases ps with
        | nil => simp only [get_fonts, if_pos hs, hsplit]
        | cons p2 ps2 => rw [hsplit] at hbad; simp at hbad; omega
    · by_cases ha : pyStartsWith styleMarker a = true
      · cases hsplit : pySplit ',' a with
        | nil => exact absurd hsplit (pySplit_ne_nil ',' a)
        | cons p1 ps =>
          cases ps with
          | nil => simp only [get_fonts, if_pos ha, hsplit]
          | cons p2 ps2 =>
            simp only [get_fonts, if_pos ha, hsplit, ih hmem2]
      · simp only [get_fonts, if_neg ha, ih hmem2]

/-- Witness for the amended C6 at a concrete file. -/
theorem get_fonts_malformed_raises_witness :
    (("Style: NoComma").toList ∈ [("[V4+ Styles]").toList, ("Style: NoComma").toList,
        ("Style: B,Arial,20").toList] ∧
      pyStartsWith styleMarker (("Style: NoComma").toList) = true ∧
      (pySplit ',' (("Style: NoComma").toList)).length < 2) ∧
    get_fonts [("[V4+ Styles]").toList, ("Style: NoComma").toList,
      ("Style: B,Arial,20").toList] = .error "list index out of range" :=
  ⟨by refine ⟨by decide, by decide, by decide⟩,
    get_fonts_malformed_raises _ (("Style: NoComma").toList)
      (by decide) (by decide) (by decide)⟩

/-- The style-section header `[V4+ Styles]`. -/
def stylesHeader : List Char :=
  ('[' :: 'V' :: '4' :: '+' :: ' ' :: 'S' :: 't' :: 'y' :: 'l' :: 'e' :: 's' :: ']' :: [])

/-- One step of the section flag of `ASSFile.replace_style_attributes`:
a trimmed line starting with `[V4+ Styles]` turns it on, otherwise a trimmed
line starting with `[` while inside turns it off. -/
def updFlag (flag : Bool) (line : List Char) : Bool :=
  if pyStartsWith stylesHeader (pyStrip line) then true
  else if pyStartsWith ['['] (pyStrip line) && flag then false
  else flag

/-- The value of the section flag after the first `i + 1` lines have been
processed (the flag consulted when line `i` is considered for rewriting). -/
def flagAt (lines : List (List Char)) (i : Nat) : Bool :=
  (lines.take (i + 1)).foldl updFlag false

/-- Line `i` is eligible for rewriting: inside the style section, starts with
`Style:`, and is textually equal to a chosen line. -/
def eligibleLine (lines chosen : List (List Char)) (i : Nat) : Prop :=
  flagAt lines i = true ∧
  pyStartsWith styleMarker (lines.getD i []) = true ∧
  lines.getD i [] ∈ chosen

/-- The inner loop of `replace_style_attributes` over `replacements.items()`:
for each `(index, value)` pair, if `index` is in range and `value` is not
blank, store `value` at `index` — translated through `hex_to_ass_color` first
when it begins with `#` (which can raise). -/
def applySpec : List (List Char) → List (Nat × List Char) → Except String (List (List Char))
  | parts, [] => .ok parts
  | parts, (i, v) :: rest =>
    if i < parts.length ∧ pyStrip v ≠ [] then
      if pyStartsWith ['#'] v then
        match hex_to_ass_color v with
        | .ok c => applySpec (parts.set i c) rest
        | .error e => .error e
      else applySpec (parts.set i v) rest
    else applySpec parts rest

/-- Rewriting one matched line: split on commas, apply the replacement spec,
join with commas. -/
def rewriteLine (repl : List (Nat × List Char)) (line : List Char) : Except String (List Char) :=
  match applySpec (pySplit ',' line) repl with
  | .ok parts => .ok (pyJoin ',' parts)
  | .error e => .error e

/-- The line loop of `ASSFile.replace_style_attributes`: update the section
flag, rewrite eligible lines, pass all others through unchanged. -/
def replaceLinesGo (chosen : List (List Char)) (repl : List (Nat × List Char)) :
    Bool → List (List Char) → Except String (List (List Char))
  | _, [] => .ok []
  | flag, line :: rest =>
    let flagN := updFlag flag line
    if flagN = true ∧ pyStartsWith styleMarker line = true ∧ line ∈ chosen then
      match rewriteLine repl line with
      | .ok lineN =>
        match replaceLinesGo chosen repl flagN rest with
        | .ok out => .ok (lineN :: out)
        | .error e => .error e
      | .error e => .error e
    else
      match replaceLinesGo chosen repl flagN rest with
      | .ok out => .ok (line :: out)
      | .error e => .error e

/-- `ASSFile.replace_style_attributes` on the in-memory line sequence: the
loop starts with the flag off; the updated lines are produced only if no
color translation raised. -/
def replace_style_attributes (lines chosen : List (List Char))
    (repl : List (Nat × List Char)) : Except String (List (List Char)) :=
  replaceLinesGo chosen repl false lines

/-- The file content on disk after one invocation: the source writes
`updated_lines` only after the whole loop has finished, so an exception
raised during the loop leaves the file holding its original lines. -/
def replace_on_disk (lines chosen : List (List Char))
    (repl : List (Nat × List Char)) : List (List Char) :=
  match replace_style_attributes lines chosen repl with
  | .ok out => out
  | .error _ => lines

theorem getD_set_ne (l : List (List Char)) {i j : Nat} (h : i ≠ j) (a : List Char) :
    (l.set i a).getD j [] = l.getD j [] := by
  simp [List.getD_eq_getElem?_getD, List.getElem?_set_ne h]

theorem applySpec_ok :
    ∀ (repl : List (Nat × List Char)) (parts out : List (List Char)),
      applySpec parts repl = .ok out →
      out.length = parts.length ∧
      ∀ j, (∀ v, (j, v) ∈ repl → pyStrip v = []) → out.getD j [] = parts.getD j [] := by
  intro repl
  induction repl with
  | nil =>
    intro parts out h
    cases h
    exact ⟨rfl, fun j _ => rfl⟩
  | cons p rest ih =>
    intro parts out h
    obtain ⟨i, v⟩ := p
    simp only [applySpec] at h
    split at h
    · rename_i hc
      have hji : ∀ j, (∀ w, (j, w) ∈ (i, v) :: rest → pyStrip w = []) → j ≠ i := by
        intro j hall hji
        exact hc.2 (hall v (by rw [hji]; exact List.mem_cons_self _ _))
      split at h
      · cases hhex : hex_to_ass_color v with
        | ok c =>
          rw [hhex] at h
          obtain ⟨hlen, hframe⟩ := ih (parts.set i c) out h
          refine ⟨by rw [hlen, List.length_set], fun j hall => ?_⟩
          rw [hframe j (fun w hw => hall w (List.mem_cons_of_mem _ hw)),
            getD_set_ne _ (fun hij => hji j hall hij.symm)]
        | error e => rw [hhex] at h; cases h
      · obtain ⟨hlen, hframe⟩ := ih (parts.set i v) out h
        refine ⟨by rw [hlen, List.length_set], fun j hall => ?_⟩
        rw [hframe j (fun w hw => hall w (List.mem_cons_of_mem _ hw)),
          getD_set_ne _ (fun hij => hji j hall hij.symm)]
    · obtain ⟨hlen, hframe⟩ := ih parts out h
      exact ⟨hlen, fun j hall => hframe j (fun w hw => hall w (List.mem_cons_of_mem _ hw))⟩

theorem applySpec_skip :
    ∀ (repl : List (Nat × List Char)) (parts : List (List Char)),
      (∀ p ∈ repl, pyStrip p.2 = []) → applySpec parts repl = .ok parts := by
  intro repl
  induction repl with
  | nil => intro parts _; rfl
  | cons p rest ih =>
    intro parts hall
    obtain ⟨i, v⟩ := p
    have hv : pyStrip v = [] := hall (i, v) (List.mem_cons_self _ _)
    simp only [applySpec]
    rw [if_neg (fun hc => hc.2 hv)]
    exact ih parts (fun q hq => hall q (List.mem_cons_of_mem _ hq))

theorem rewriteLine_ok (repl : List (Nat × List Char)) (line out : List Char)
    (h : rewriteLine repl line = .ok out) :
    ∃ ps, out = pyJoin ',' ps ∧ ps.length = (pySplit ',' line).length ∧
      ∀ j, ((pySplit ',' line).length ≤ j ∨ ∀ v, (j, v) ∈ repl → pyStrip v = []) →
        ps.getD j [] = (pySplit ',' line).getD j [] := by
  simp only [rewriteLine] at h
  cases hap : applySpec (pySplit ',' line) repl with
  | ok parts =>
    rw [hap] at h
    cases h
    obtain ⟨hlen, hframe⟩ := applySpec_ok repl _ parts hap
    refine ⟨parts, rfl, hlen, fun j hj => ?_⟩
    rcases hj with hout | hall
    · rw [List.getD_eq_default _ _ (hlen ▸ hout), List.getD_eq_default _ _ hout]
    · exact hframe j hall
  | error e => rw [hap] at h; cases h

theorem rewriteLine_skip (repl : List (Nat × List Char)) (line : List Char)
    (h : ∀ p ∈ repl, pyStrip p.2 = []) : rewriteLine repl line = .ok line := by
  simp [rewriteLine, applySpec_skip repl _ h, pyJoin_pySplit]

theorem replaceLinesGo_ok (chosen : List (List Char)) (repl : List (Nat × List Char)) :
    ∀ (lines : List (List Char)) (flag : Bool) (out : List (List Char)),
      replaceLinesGo chosen repl flag lines = .ok out →
      out.length = lines.length ∧
      ∀ i, i < lines.length →
        (¬((lines.take (i + 1)).foldl updFlag flag = true ∧
            pyStartsWith styleMarker (lines.getD i []) = true ∧
            lines.getD i [] ∈ chosen) →
          out.getD i [] = lines.getD i []) ∧
        (((lines.take (i + 1)).foldl updFlag flag = true ∧
            pyStartsWith styleMarker (lines.getD i []) = true ∧
            lines.getD i [] ∈ chosen) →
          ∃ ps, out.getD i [] = pyJoin ',' ps ∧
            ps.length = (pySplit ',' (lines.getD i [])).length ∧
            ∀ j, ((pySplit ',' (lines.getD i [])).length ≤ j ∨
                ∀ v, (j, v) ∈ repl → pyStrip v = []) →
              ps.getD j [] = (pySplit ',' (lines.getD i [])).getD j []) := by
  intro lines
  induction lines with
  | nil =>
    intro flag out h
    injection h with h2
    subst h2
    exact ⟨rfl, fun i hi => absurd hi (Nat.not_lt_zero i)⟩
  | cons line rest ih =>
    intro flag out h
    simp only [replaceLinesGo] at h
    by_cases hc : updFlag flag line = true ∧
        pyStartsWith styleMarker line = true ∧ line ∈ chosen
    · rw [if_pos hc] at h
      cases hrw : rewriteLine repl line with
      | error e => rw [hrw] at h; cases h
      | ok lineN =>
        rw [hrw] at h
        cases hrest : replaceLinesGo chosen repl (updFlag flag line) rest with
        | error e => rw [hrest] at h; cases h
        | ok outN =>
          rw [hrest] at h
          injection h with h2
          subst h2
          obtain ⟨hlen, hrec⟩ := ih (updFlag flag line) outN hrest
          refine ⟨by simp [hlen], fun i hi => ?_⟩
          cases i with
          | zero =>
            constructor
            · intro hna
              exfalso
              apply hna
              simpa [List.take_succ_cons, List.take_zero, List.foldl] using hc
            · intro _
              obtain ⟨ps, hps1, hps2, hps3⟩ := rewriteLine_ok repl line lineN hrw
              simp only [List.getD_cons_zero]
              exact ⟨ps, hps1, hps2, hps3⟩
          | succ i =>
            have hi2 : i < rest.length := by simpa using hi
            obtain ⟨ha, hb⟩ := hrec i hi2
            constructor
            · intro hna
              simp only [List.take_succ_cons, List.foldl_cons, List.getD_cons_succ] at hna ⊢
              exact ha hna
            · intro hcc
              simp only [List.take_succ_cons, List.foldl_cons, List.getD_cons_succ] at hcc ⊢
              exact hb hcc
    · rw [if_neg hc] at h
      cases hrest : replaceLinesGo chosen repl (updFlag flag line) rest with
      | error e => rw [hrest] at h; cases h
      | ok outN =>
        rw [hrest] at h
        injection h with h2
        subst h2
        obtain ⟨hlen, hrec⟩ := ih (updFlag flag line) outN hrest
        refine ⟨by simp [hlen], fun i hi => ?_⟩
        cases i with
        | zero =>
          constructor
          · intro _
            simp
          · intro hcc
            exfalso
            apply hc
            simpa [List.take_succ_cons, List.take_zero, List.foldl] using hcc
        | succ i =>
          have hi2 : i < rest.length := by simpa using hi
          obtain ⟨ha, hb⟩ := hrec i hi2
          constructor
          · intro hna
            simp only [List.take_succ_cons, List.foldl_cons, List.getD_cons_succ] at hna ⊢
            exact ha hna
          · intro hcc
            simp only [List.take_succ_cons, List.foldl_cons, List.getD_cons_succ] at hcc ⊢
            exact hb hcc

/-- **C3.** Frame property of the replacement operation: when it succeeds,
the output has exactly one line per input line (nothing reordered or removed);
every line that is not eligible (outside the style section, or not starting
with `Style:`, or not textually equal to a chosen line) passes through
unchanged; and a rewritten eligible line is the comma-join of a field list of
the original field count in which every field whose index is absent from the
spec, carries a blank value, or lies outside the field count is unchanged. -/
theorem replace_style_attributes_frame (lines chosen : List (List Char))
    (repl : List (Nat × List Char)) (out : List (List Char))
    (h : replace_style_attributes lines chosen repl = .ok out) :
    out.length = lines.length ∧
    ∀ i, i < lines.length →
      (¬ eligibleLine lines chosen i → out.getD i [] = lines.getD i []) ∧
      (eligibleLine lines chosen i →
        ∃ ps, out.getD i [] = pyJoin ',' ps ∧
          ps.length = (pySplit ',' (lines.getD i [])).length ∧
          ∀ j, ((pySplit ',' (lines.getD i [])).length ≤ j ∨
              ∀ v, (j, v) ∈ repl → pyStrip v = []) →
            ps.getD j [] = (pySplit ',' (lines.getD i [])).getD j []) :=
  replaceLinesGo_ok chosen repl lines false out h

/-- A sample file: a stray line, the style header, a chosen style line, an
unchosen style line, the next section header, and a style line after the
style section has ended. -/
def sampleLines : List (List Char) :=
  [("junk").toList, ("[V4+ Styles]").toList, ("Style: A,Arial,20").toList,
   ("Style: B,Calibri,20").toList, ("[Events]").toList, ("Style: C,Arial,20").toList]

/-- The chosen records for the sample file: only style `A`. -/
def sampleChosen : List (List Char) := [("Style: A,Arial,20").toList]

/-- A replacement spec for the sample file: field 1 becomes `Verdana`,
field 2 carries an empty value (skip). -/
def sampleRepl : List (Nat × List Char) := [(1, ("Verdana").toList), (2, [])]

/-- The sample file after replacement: only the chosen style line changed. -/
def sampleOut : List (List Char) :=
  [("junk").toList, ("[V4+ Styles]").toList, ("Style: A,Verdana,20").toList,
   ("Style: B,Calibri,20").toList, ("[Events]").toList, ("Style: C,Arial,20").toList]

/-- Witness for C3 on the sample file. -/
theorem replace_style_attributes_frame_witness :
    sampleOut.length = sampleLines.length ∧
    ∀ i, i < sampleLines.length →
      (¬ eligibleLine sampleLines sampleChosen i →
        sampleOut.getD i [] = sampleLines.getD i []) ∧
      (eligibleLine sampleLines sampleChosen i →
        ∃ ps, sampleOut.getD i [] = pyJoin ',' ps ∧
          ps.length = (pySplit ',' (sampleLines.getD i [])).length ∧
          ∀ j, ((pySplit ',' (sampleLines.getD i [])).length ≤ j ∨
              ∀ v, (j, v) ∈ sampleRepl → pyStrip v = []) →
            ps.getD j [] = (pySplit ',' (sampleLines.getD i [])).getD j []) :=
  replace_style_attributes_frame sampleLines sampleChosen sampleRepl sampleOut rfl

/-- **C4.** Atomicity on color error: when the replacement operation raises
(`InvalidColorFormat` from the color translation is the only error source in
its loop), the file on disk keeps its original lines — the write only happens
after the whole loop has completed, so there is no partial-write outcome. -/
theorem replace_style_attributes_atomic (lines chosen : List (List Char))
    (repl : List (Nat × List Char)) (e : String)
    (h : replace_style_attributes lines chosen repl = .error e) :
    replace_on_disk lines chosen repl = lines := by
  simp [replace_on_disk, h]

/-- Witness for C4: a blank-stripped `#`-value of the wrong length makes the
operation raise on the chosen line, and the disk content stays the original. -/
theorem replace_style_attributes_atomic_witness :
    replace_style_attributes sampleLines sampleChosen [(2, ('#' :: '1' :: '2' :: []))] =
      .error "Invalid hex color format. Use #RRGGBB." ∧
    replace_on_disk sampleLines sampleChosen [(2, ('#' :: '1' :: '2' :: []))] = sampleLines :=
  ⟨rfl, replace_style_attributes_atomic sampleLines sampleChosen _ _ rfl⟩

theorem replaceLinesGo_skip (chosen : List (List Char)) (repl : List (Nat × List Char))
    (h : ∀ p ∈ repl, pyStrip p.2 = []) :
    ∀ (lines : List (List Char)) (flag : Bool),
      replaceLinesGo chosen repl flag lines = .ok lines := by
  intro lines
  induction lines with
  | nil => intro flag; rfl
  | cons line rest ih =>
    intro flag
    simp only [replaceLinesGo]
    by_cases hc : updFlag flag line = true ∧
        pyStartsWith styleMarker line = true ∧ line ∈ chosen
    · simp only [if_pos hc, rewriteLine_skip repl line h, ih (updFlag flag line)]
    · simp only [if_neg hc, ih (updFlag flag line)]

/-- **C8.** Idempotence of skip: a replacement spec that is empty or whose
values are all empty/whitespace-only leaves the line sequence identical to
the input, for every file and every chosen set. -/
theorem replace_style_attributes_skip (lines chosen : List (List Char))
    (repl : List (Nat × List Char)) (h : ∀ p ∈ repl, pyStrip p.2 = []) :
    replace_style_attributes lines chosen repl = .ok lines :=
  replaceLinesGo_skip chosen repl h lines false

/-- Witness for C8: an all-blank spec over the sample file returns it intact. -/
theorem replace_style_attributes_skip_witness :
    (∀ p ∈ [(1, (' ' :: ' ' :: [])), ((3 : Nat), ([] : List Char))], pyStrip p.2 = []) ∧
    replace_style_attributes sampleLines sampleChosen
      [(1, (' ' :: ' ' :: [])), (3, [])] = .ok sampleLines :=
  ⟨by decide, replace_style_attributes_skip sampleLines sampleChosen _ (by decide)⟩

/-- **C10.** In the per-line rewrite, a spec value consisting only of
whitespace is a skip (the line, hence every field, is unchanged), while a
non-blank value (not color-marked with `#`) at an in-range index is stored
verbatim — leading/trailing whitespace included, no trimming. -/
theorem rewriteLine_verbatim (line v : List Char) (i : Nat) :
    (pyStrip v = [] → rewriteLine [(i, v)] line = .ok line) ∧
    (pyStrip v ≠ [] → pyStartsWith ('#' :: []) v = false →
      i < (pySplit ',' line).length →
      rewriteLine [(i, v)] line = .ok (pyJoin ',' ((pySplit ',' line).set i v))) := by
  constructor
  · intro hb
    exact rewriteLine_skip [(i, v)] line (by simpa using hb)
  · intro hnb hnh hlt
    simp [rewriteLine, applySpec, hlt, hnb, hnh]

/-- Witness for C10: a whitespace-only value skips; the value ` Verdana `
is stored with its surrounding spaces intact. -/
theorem rewriteLine_verbatim_witness :
    rewriteLine [(1, (' ' :: ' ' :: []))] (("Style: A,Arial,20").toList) =
      .ok (("Style: A,Arial,20").toList) ∧
    rewriteLine [(1, (" Verdana ").toList)] (("Style: A,Arial,20").toList) =
      .ok (("Style: A, Verdana ,20").toList) :=
  ⟨(rewriteLine_verbatim (("Style: A,Arial,20").toList) _ 1).1 (by decide),
   (rewriteLine_verbatim (("Style: A,Arial,20").toList) _ 1).2
     (by decide) (by decide) (by decide)⟩

/-- Number of records carrying font `f` (`font_counts` tallies one per record). -/
def countFont : List (List Char) → List Char → Nat
  | [], _ => 0
  | a :: rest, f => countFont rest f + (if a = f then 1 else 0)

/-- Index of the first occurrence of `f` in scan order. -/
def firstIdx : List (List Char) → List Char → Nat
  | [], _ => 0
  | a :: rest, f => if a = f then 0 else firstIdx rest f + 1

/-- One step of `font_counts[font] = font_counts.get(font, 0) + 1` on the
insertion-ordered association list that models a Python dict: an existing key
is incremented in place, a new key is appended with count 1. -/
def updateCount : List (List Char × Nat) → List Char → List (List Char × Nat)
  | [], f => [(f, 1)]
  | (g, n) :: rest, f =>
    if g = f then (g, n + 1) :: rest else (g, n) :: updateCount rest f

/-- The `font_counts` dict of `ASSFile.find_most_frequent_font`, built by a
left fold over the fonts in scan order. -/
def fontCounts (fonts : List (List Char)) : List (List Char × Nat) :=
  fonts.foldl updateCount []

/-- `font_counts.get(f, 0)` on the association list. -/
def lookupCount : List (List Char × Nat) → List Char → Nat
  | [], _ => 0
  | (g, n) :: rest, f => if g = f then n else lookupCount rest f

/-- The keys a scan appends beyond `seen`: first occurrences, in scan order. -/
def newKeys : List (List Char) → List (List Char) → List (List Char)
  | _, [] => []
  | seen, f :: rest =>
    if f ∈ seen then newKeys seen rest else f :: newKeys (f :: seen) rest

/-- One step of Python `max(..., key=...)`: the current best is kept unless
the candidate is strictly greater, so the first maximum wins. -/
def maxStep (best q : List Char × Nat) : List Char × Nat :=
  if best.2 < q.2 then q else best

/-- `max(font_counts, key=font_counts.get)`: `none` on an empty dict
(`ValueError` in Python), otherwise the first key of maximal count. -/
def pyMaxByCount : List (List Char × Nat) → Option (List Char)
  | [] => none
  | p :: rest => some ((rest.foldl maxStep p).1)

/-- `ASSFile.find_most_frequent_font` over the scanned `(font, line)` records:
tally counts in scan order, then take the max key by count. -/
def find_most_frequent_font (records : List (List Char × List Char)) : Option (List Char) :=
  pyMaxByCount (fontCounts (records.map Prod.fst))

theorem updateCount_lookup (acc : List (List Char × Nat)) (f g : List Char) :
    lookupCount (updateCount acc f) g =
      lookupCount acc g + (if g = f then 1 else 0) := by
  induction acc with
  | nil =>
    by_cases h : g = f
    · subst h; simp [updateCount, lookupCount]
    · have h2 : ¬(f = g) := fun hh => h hh.symm
      simp [updateCount, lookupCount, h, h2]
  | cons p rest ih =>
    obtain ⟨a, n⟩ := p
    by_cases haf : a = f
    · subst haf
      simp only [updateCount, if_pos rfl, lookupCount]
      by_cases hg : a = g
      · subst hg; simp
      · have hg2 : ¬(g = a) := fun hh => hg hh.symm
        simp [hg, hg2]
    · simp only [updateCount, if_neg haf, lookupCount]
      by_cases hg : a = g
      · subst hg
        simp [haf]
      · have hg2 : ¬(g = a) := fun hh => hg hh.symm
        simp [hg, hg2, ih]

theorem updateCount_keys (acc : List (List Char × Nat)) (f : List Char) :
    (updateCount acc f).map Prod.fst =
      if f ∈ acc.map Prod.fst then acc.map Prod.fst
      else acc.map Prod.fst ++ [f] := by
  induction acc with
  | nil => simp [updateCount]
  | cons p rest ih =>
    obtain ⟨a, n⟩ := p
    by_cases haf : a = f
    · subst haf
      simp [updateCount]
    · simp only [updateCount, if_neg haf, List.map_cons]
      have hfa : ¬(f = a) := fun hh => haf hh.symm
      by_cases hf : f ∈ rest.map Prod.fst
      · simp [hf, ih, hfa]
      · simp [hf, ih, hfa]

theorem foldl_updateCount_lookup (fonts : List (List Char)) :
    ∀ (acc : List (List Char × Nat)) (g : List Char),
      lookupCount (fonts.foldl updateCount acc) g =
        lookupCount acc g + countFont fonts g := by
  induction fonts with
  | nil => intro acc g; simp [countFont]
  | cons f rest ih =>
    intro acc g
    rw [List.foldl_cons, ih, updateCount_lookup]
    simp only [countFont]
    by_cases h : g = f
    · subst h; simp; omega
    · have h2 : ¬(f = g) := fun hh => h hh.symm
      simp [h, h2]

theorem newKeys_congr (l : List (List Char)) :
    ∀ s₁ s₂ : List (List Char), (∀ x, x ∈ s₁ ↔ x ∈ s₂) →
      newKeys s₁ l = newKeys s₂ l := by
  induction l with
  | nil => intro s₁ s₂ _; rfl
  | cons f rest ih =>
    intro s₁ s₂ h
    by_cases hf : f ∈ s₁
    · rw [newKeys, newKeys, if_pos hf, if_pos ((h f).1 hf), ih s₁ s₂ h]
    · rw [newKeys, newKeys, if_neg hf, if_neg (fun hh => hf ((h f).2 hh)),
        ih (f :: s₁) (f :: s₂) (fun x => by simp [h x])]

theorem foldl_updateCount_keys (fonts : List (List Char)) :
    ∀ acc : List (List Char × Nat),
      (fonts.foldl updateCount acc).map Prod.fst =
        acc.map Prod.fst ++ newKeys (acc.map Prod.fst) fonts := by
  induction fonts with
  | nil => intro acc; simp [newKeys]
  | cons f rest ih =>
    intro acc
    rw [List.foldl_cons, ih (updateCount acc f), updateCount_keys]
    by_cases hf : f ∈ acc.map Prod.fst
    · rw [if_pos hf, newKeys, if_pos hf]
    · rw [if_neg hf, newKeys, if_neg hf, List.append_assoc, List.singleton_append]
      congr 1
      congr 1
      exact newKeys_congr rest _ _ (fun x => by simp [or_comm])

theorem newKeys_mem (l : List (List Char)) :
    ∀ (seen : List (List Char)) (g : List Char),
      g ∈ newKeys seen l ↔ g ∈ l ∧ g ∉ seen := by
  induction l with
  | nil => intro seen g; simp [newKeys]
  | cons f rest ih =>
    intro seen g
    by_cases hf : f ∈ seen
    · rw [newKeys, if_pos hf, ih]
      constructor
      · rintro ⟨h1, h2⟩; exact ⟨List.mem_cons_of_mem _ h1, h2⟩
      · rintro ⟨h1, h2⟩
        rcases List.mem_cons.mp h1 with rfl | h1
        · exact absurd hf h2
        · exact ⟨h1, h2⟩
    · rw [newKeys, if_neg hf]
      constructor
      · intro hm
        rcases List.mem_cons.mp hm with rfl | hm
        · exact ⟨List.mem_cons_self _ _, hf⟩
        · obtain ⟨h1, h2⟩ := (ih (f :: seen) g).1 hm
          exact ⟨List.mem_cons_of_mem _ h1,
            fun hs => h2 (List.mem_cons_of_mem _ hs)⟩
      · rintro ⟨h1, h2⟩
        rcases List.mem_cons.mp h1 with rfl | h1
        · exact List.mem_cons_self _ _
        · by_cases hgf : g = f
          · subst hgf; exact List.mem_cons_self _ _
          · exact List.mem_cons_of_mem _
              ((ih (f :: seen) g).2 ⟨h1, fun hs => by
                rcases List.mem_cons.mp hs with hh | hh
                · exact hgf hh
                · exact h2 hh⟩)

theorem newKeys_nodup (l : List (List Char)) :
    ∀ seen : List (List Char), (newKeys seen l).Nodup := by
  induction l with
  | nil => intro seen; simp [newKeys]
  | cons f rest ih =>
    intro seen
    by_cases hf : f ∈ seen
    · rw [newKeys, if_pos hf]; exact ih seen
    · rw [newKeys, if_neg hf]
      refine List.nodup_cons.mpr ⟨fun hm => ?_, ih (f :: seen)⟩
      exact ((newKeys_mem rest _ f).1 hm).2 (List.mem_cons_self _ _)

theorem newKeys_pairwise (l : List (List Char)) :
    ∀ seen : List (List Char),
      (newKeys seen l).Pairwise (fun a b => firstIdx l a < firstIdx l b) := by
  induction l with
  | nil => intro seen; simp [newKeys]
  | cons f rest ih =>
    intro seen
    by_cases hf : f ∈ seen
    · rw [newKeys, if_pos hf]
      refine (ih seen).imp_of_mem ?_
      intro a b ha hb hab
      have haf : ¬(f = a) := fun hh =>
        ((newKeys_mem rest seen a).1 ha).2 (hh ▸ hf)
      have hbf : ¬(f = b) := fun hh =>
        ((newKeys_mem rest seen b).1 hb).2 (hh ▸ hf)
      simp only [firstIdx, if_neg haf, if_neg hbf]
      omega
    · rw [newKeys, if_neg hf]
      refine List.pairwise_cons.mpr ⟨?_, ?_⟩
      · intro b hb
        have hbf : ¬(f = b) := fun hh =>
          ((newKeys_mem rest (f :: seen) b).1 hb).2 (hh ▸ List.mem_cons_self _ _)
        simp [firstIdx, hbf]
      · refine (ih (f :: seen)).imp_of_mem ?_
        intro a b ha hb hab
        have haf : ¬(f = a) := fun hh =>
          ((newKeys_mem rest (f :: seen) a).1 ha).2 (hh ▸ List.mem_cons_self _ _)
        have hbf : ¬(f = b) := fun hh =>
          ((newKeys_mem rest (f :: seen) b).1 hb).2 (hh ▸ List.mem_cons_self _ _)
        simp only [firstIdx, if_neg haf, if_neg hbf]
        omega

theorem lookup_of_mem :
    ∀ (acc : List (List Char × Nat)) (g : List Char) (m : Nat),
      (acc.map Prod.fst).Nodup → (g, m) ∈ acc → lookupCount acc g = m := by
  intro acc
  induction acc with
  | nil => intro g m _ hm; cases hm
  | cons p rest ih =>
    intro g m hnd hm
    obtain ⟨a, n⟩ := p
    rcases List.mem_cons.mp hm with heq | hm2
    · injection heq with h1 h2
      subst h1; subst h2
      simp [lookupCount]
    · have hnd2 : (a :: rest.map Prod.fst).Nodup := by simpa using hnd
      have hh := List.nodup_cons.mp hnd2
      have hag : ¬(a = g) := by
        intro heq2
        subst heq2
        exact hh.1 (List.mem_map.mpr ⟨(a, m), hm2, rfl⟩)
      simp only [lookupCount, if_neg hag]
      exact ih g m hh.2 hm2

theorem foldMax_split :
    ∀ (rest : List (List Char × Nat)) (p : List Char × Nat),
      ∃ l₁ l₂, p :: rest = l₁ ++ (rest.foldl maxStep p) :: l₂ ∧
        (∀ q ∈ l₁, q.2 < (rest.foldl maxStep p).2) ∧
        (∀ q ∈ l₂, q.2 ≤ (rest.foldl maxStep p).2) := by
  intro rest
  induction rest with
  | nil =>
    intro p
    exact ⟨[], [], rfl, by simp, by simp⟩
  | cons q rest' ih =>
    intro p
    rw [List.foldl_cons]
    by_cases hq : p.2 < q.2
    · have hstep : maxStep p q = q := by simp [maxStep, hq]
      rw [hstep]
      obtain ⟨l₁, l₂, heq, hlt, hle⟩ := ih q
      refine ⟨p :: l₁, l₂, by rw [List.cons_append, ← heq], ?_, hle⟩
      intro r hr
      rcases List.mem_cons.mp hr with rfl | hr2
      · cases l₁ with
        | nil =>
          have hqres : q = rest'.foldl maxStep q := by
            simpa using congrArg (fun t => t.headI) heq
          rw [← hqres]
          exact hq
        | cons a t =>
          have ha : q = a := by
            simpa using congrArg (fun t => t.headI) heq
          have h2 := hlt a (List.mem_cons_self _ _)
          rw [ha] at hq
          exact Nat.lt_trans hq h2
      · exact hlt r hr2
    · have hstep : maxStep p q = p := by simp [maxStep, hq]
      rw [hstep]
      obtain ⟨l₁, l₂, heq, hlt, hle⟩ := ih p
      cases l₁ with
      | nil =>
        rw [List.nil_append] at heq
        injection heq with h1 h2
        refine ⟨[], q :: l₂, ?_, by simp, ?_⟩
        · rw [List.nil_append, ← h1, ← h2]
        · intro r hr
          rcases List.mem_cons.mp hr with rfl | hr2
          · rw [← h1]; omega
          · exact hle r hr2
      | cons a t =>
        have ha : p = a := by
          simpa using congrArg (fun u => u.headI) heq
        have htail : rest' = t ++ (rest'.foldl maxStep p) :: l₂ := by
          have h3 := congrArg List.tail heq
          simpa using h3
        have hp2 : p.2 < (rest'.foldl maxStep p).2 := by
          have h4 := hlt a (List.mem_cons_self _ _)
          rw [← ha] at h4
          exact h4
        refine ⟨p :: q :: t, l₂, ?_, ?_, hle⟩
        · conv_lhs => rw [htail]
          simp
        · intro r hr
          rcases List.mem_cons.mp hr with rfl | hr2
          · exact hp2
          rcases List.mem_cons.mp hr2 with rfl | hr3
          · omega
          · exact hlt r (List.mem_cons_of_mem _ hr3)

/-- **C7.** On every non-empty record sequence, `find_most_frequent_font`
deterministically returns a font of the records that has the highest record
count; when several fonts tie for the highest count it returns the one whose
first occurrence is earliest in scan order. -/
theorem find_most_frequent_font_spec (records : List (List Char × List Char))
    (hne : records ≠ []) :
    ∃ r, find_most_frequent_font records = some r ∧
      r ∈ records.map Prod.fst ∧
      (∀ g ∈ records.map Prod.fst,
        countFont (records.map Prod.fst) g ≤ countFont (records.map Prod.fst) r) ∧
      (∀ g ∈ records.map Prod.fst,
        countFont (records.map Prod.fst) g = countFont (records.map Prod.fst) r →
        firstIdx (records.map Prod.fst) r ≤ firstIdx (records.map Prod.fst) g) := by
  set fonts := records.map Prod.fst with hfonts
  have hkeys : (fontCounts fonts).map Prod.fst = newKeys [] fonts := by
    rw [fontCounts, foldl_updateCount_keys]
    simp
  have hnodup : ((fontCounts fonts).map Prod.fst).Nodup := by
    rw [hkeys]; exact newKeys_nodup fonts []
  have hcount : ∀ pm ∈ fontCounts fonts, pm.2 = countFont fonts pm.1 := by
    intro pm hpm
    have h1 := lookup_of_mem (fontCounts fonts) pm.1 pm.2 hnodup (by simpa using hpm)
    have h2 : lookupCount (fontCounts fonts) pm.1 =
        lookupCount [] pm.1 + countFont fonts pm.1 :=
      foldl_updateCount_lookup fonts [] pm.1
    simp only [lookupCount, Nat.zero_add] at h2
    exact h1.symm.trans h2
  have hmemkeys : ∀ g ∈ fonts, g ∈ (fontCounts fonts).map Prod.fst := by
    intro g hg
    rw [hkeys]
    exact (newKeys_mem fonts [] g).2 ⟨hg, by simp⟩
  have hfne : fonts ≠ [] := by
    intro hfe
    apply hne
    rw [hfonts] at hfe
    exact List.map_eq_nil_iff.mp hfe
  obtain ⟨f0, fonts2, hfcons⟩ : ∃ a l, fonts = a :: l := by
    cases hfx : fonts with
    | nil => exact absurd hfx hfne
    | cons a l => exact ⟨a, l, rfl⟩
  cases hFC : fontCounts fonts with
  | nil =>
    exfalso
    have h5 := hmemkeys f0 (by rw [hfcons]; exact List.mem_cons_self _ _)
    rw [hFC] at h5
    simp at h5
  | cons P PS =>
    obtain ⟨L₁, L₂, heq, hlt, hle⟩ := foldMax_split PS P
    set res := PS.foldl maxStep P with hres
    have hFCeq : fontCounts fonts = L₁ ++ res :: L₂ := by rw [hFC, heq]
    have hresmem : res ∈ fontCounts fonts := by
      rw [hFCeq]
      exact List.mem_append_right _ (List.mem_cons_self _ _)
    have hrescount : res.2 = countFont fonts res.1 := hcount res hresmem
    have hrfonts : res.1 ∈ fonts := by
      have h5 : res.1 ∈ (fontCounts fonts).map Prod.fst :=
        List.mem_map.mpr ⟨res, hresmem, rfl⟩
      rw [hkeys] at h5
      exact ((newKeys_mem fonts [] res.1).1 h5).1
    have hvalue : find_most_frequent_font records = some res.1 := by
      rw [find_most_frequent_font, ← hfonts, hFC, pyMaxByCount]
    refine ⟨res.1, hvalue, hrfonts, ?_, ?_⟩
    · intro g hg
      obtain ⟨pm, hpmmem, hpm1⟩ := List.mem_map.mp (hmemkeys g hg)
      have hpmc : pm.2 = countFont fonts pm.1 := hcount pm hpmmem
      rw [hFCeq] at hpmmem
      subst hpm1
      rcases List.mem_append.mp hpmmem with hin1 | hin2
      · have h6 := hlt pm hin1
        omega
      rcases List.mem_cons.mp hin2 with heq2 | hin3
      · rw [heq2]
      · have h6 := hle pm hin3
        omega
    · intro g hg hcc
      obtain ⟨pm, hpmmem, hpm1⟩ := List.mem_map.mp (hmemkeys g hg)
      have hpmc : pm.2 = countFont fonts pm.1 := hcount pm hpmmem
      rw [hFCeq] at hpmmem
      subst hpm1
      rcases List.mem_append.mp hpmmem with hin1 | hin2
      · exfalso
        have h6 := hlt pm hin1
        omega
      rcases List.mem_cons.mp hin2 with heq2 | hin3
      · rw [heq2]
      · have hpw : ((fontCounts fonts).map Prod.fst).Pairwise
            (fun a b => firstIdx fonts a < firstIdx fonts b) := by
          rw [hkeys]; exact newKeys_pairwise fonts []
        rw [hFCeq, List.map_append, List.map_cons] at hpw
        have hsplit := (List.pairwise_append.mp hpw).2.1
        have h7 := (List.pairwise_cons.mp hsplit).1 pm.1
          (List.mem_map.mpr ⟨pm, hin3, rfl⟩)
        exact Nat.le_of_lt h7

/-- Sample records with a tie: fonts `B, A, A, B` — counts tie at 2,
`B` is first-encountered. -/
def sampleRecords : List (List Char × List Char) :=
  [(('B' :: []), ("Style: S1,B,20").toList), (('A' :: []), ("Style: S2,A,20").toList),
   (('A' :: []), ("Style: S3,A,20").toList), (('B' :: []), ("Style: S4,B,20").toList)]

/-- Witness for C7 on the tied sample records. -/
theorem find_most_frequent_font_spec_witness :
    sampleRecords ≠ [] ∧
    (∃ r, find_most_frequent_font sampleRecords = some r ∧
      r ∈ sampleRecords.map Prod.fst ∧
      (∀ g ∈ sampleRecords.map Prod.fst,
        countFont (sampleRecords.map Prod.fst) g ≤
          countFont (sampleRecords.map Prod.fst) r) ∧
      (∀ g ∈ sampleRecords.map Prod.fst,
        countFont (sampleRecords.map Prod.fst) g =
            countFont (sampleRecords.map Prod.fst) r →
        firstIdx (sampleRecords.map Prod.fst) r ≤
          firstIdx (sampleRecords.map Prod.fst) g)) :=
  ⟨by decide, find_most_frequent_font_spec sampleRecords (by decide)⟩

/-- The universal-newline translation Python text mode applies on read
(`open(path, "r", encoding="utf-8")` with the default `newline=None`):
`\r\n` and lone `\r` both become `\n`.  Character content other than line
terminators is unchanged; on write (`os.linesep = "\n"` assumed) `\n` is
written back unchanged, so this is the only byte-level transformation of the
load/persist pair in `ASSFile.replace_style_attributes`. -/
def univNewlines : List Char → List Char
  | [] => []
  | '\r' :: '\n' :: rest => '\n' :: univNewlines rest
  | '\r' :: rest => '\n' :: univNewlines rest
  | c :: rest => c :: univNewlines rest

/-- `f.readlines()` on the translated stream: split after each `\n`, keeping
the terminator with its line; a last line without `\n` is kept as-is. -/
def splitLinesKeepEnds : List Char → List (List Char)
  | [] => []
  | c :: rest =>
    if c = '\n' then ('\n' :: []) :: splitLinesKeepEnds rest
    else
      match splitLinesKeepEnds rest with
      | [] => [(c :: [])]
      | l :: ls => (c :: l) :: ls

/-- `load`: read the file into its line sequence (text mode, see above). -/
def load_lines (content : List Char) : List (List Char) :=
  splitLinesKeepEnds (univNewlines content)

/-- `f.writelines(lines)`: concatenation of the lines. -/
def concatLines : List (List Char) → List Char
  | [] => []
  | l :: ls => l ++ concatLines ls

/-- `persist`: the character content written back to the file. -/
def persist_content (lines : List (List Char)) : List Char :=
  concatLines lines

theorem concatLines_splitLinesKeepEnds (s : List Char) :
    concatLines (splitLinesKeepEnds s) = s := by
  induction s with
  | nil => rfl
  | cons c rest ih =>
    by_cases h : c = '\n'
    · subst h
      simp only [splitLinesKeepEnds, if_pos rfl, concatLines]
      rw [ih]
      rfl
    · simp only [splitLinesKeepEnds, if_neg h]
      cases hr : splitLinesKeepEnds rest with
      | nil =>
        rw [hr] at ih
        simp only [concatLines] at ih ⊢
        rw [← ih]
        rfl
      | cons l ls =>
        rw [hr] at ih
        simp only [concatLines] at ih ⊢
        rw [List.cons_append, ih]

theorem cr_not_mem_univNewlines (s : List Char) : '\r' ∉ univNewlines s := by
  induction s using univNewlines.induct with
  | case1 => simp [univNewlines]
  | case2 rest ih => simp [univNewlines]; exact ih
  | case3 rest h ih => simp [univNewlines]; exact ih
  | case4 c rest h hne ih =>
    simp [univNewlines]
    exact ⟨fun hc => hne hc.symm, ih⟩

theorem univNewlines_of_no_cr (s : List Char) (h : '\r' ∉ s) : univNewlines s = s := by
  induction s using univNewlines.induct with
  | case1 => rfl
  | case2 rest ih => exact absurd (List.mem_cons_self _ _) h
  | case3 rest hx ih => exact absurd (List.mem_cons_self _ _) h
  | case4 c rest hx hne ih =>
    have h2 : '\r' ∉ rest := fun hm => h (List.mem_cons_of_mem _ hm)
    simp [univNewlines]
    exact ih h2

/-- **C9 counterexample.** Loading and immediately persisting is not
byte-identical on every file: text-mode reading translates the `\r\n`
terminator to `\n`, so the content `a\r\nb` round-trips to `a\nb`. -/
theorem load_persist_crlf_counterexample :
    persist_content (load_lines ('a' :: '\r' :: '\n' :: 'b' :: [])) =
      ('a' :: '\n' :: 'b' :: []) ∧
    persist_content (load_lines ('a' :: '\r' :: '\n' :: 'b' :: [])) ≠
      ('a' :: '\r' :: '\n' :: 'b' :: []) :=
  ⟨rfl, by decide⟩

/-- **C9 amended.** Round-trip `persist(load(content))` is byte-identical
exactly when the content contains no carriage return; in general the
round-trip equals the content with `\r\n` and lone `\r` normalized to `\n`
(universal-newline text mode), all other characters preserved. -/
theorem load_persist_roundtrip_iff (content : List Char) :
    persist_content (load_lines content) = content ↔ '\r' ∉ content := by
  have hjoin : persist_content (load_lines content) = univNewlines content :=
    concatLines_splitLinesKeepEnds (univNewlines content)
  rw [hjoin]
  constructor
  · intro h hr
    rw [← h] at hr
    exact cr_not_mem_univNewlines content hr
  · exact univNewlines_of_no_cr content
